import Mathlib

set_option maxHeartbeats 1000000
set_option maxRecDepth 100000

/-!
Shallow embedding of the FT232 JTAG AVR programmer (`program.py`).

The repository consists of a TAP transaction codec (`jtag_command`), which
encodes one JTAG instruction-register load plus data-register shift into a
byte stream of line states and decodes the echoed response, and an AVR
programming sequencer (`program_elf`, `poll_fuse_write_complete`,
`program_fuses`) built on top of it.

Machine bytes are modelled as `Nat` with explicit masking; the synchronous
bit-bang transport is modelled by the response byte list it echoes.
-/

/-- Signal line bit positions, `TMS = 1 << 4` in the source. -/
def TMS : Nat := 1 <<< 4

/-- `TDI = 1 << 2`. -/
def TDI : Nat := 1 <<< 2

/-- `TDO = 1 << 3` (the input line). -/
def TDO : Nat := 1 <<< 3

/-- `TCK = 1 << 5` (the clock line). -/
def TCK : Nat := 1 <<< 5

/-- The fixed AVR JTAG instruction set (`class AVR_JTAG(Enum)`). -/
inductive AVR_JTAG
  | IDCODE
  | PROG_ENABLE
  | PROG_COMMANDS
  | PROG_PAGELOAD
  | PROG_PAGEREAD
  | AVR_RESET
  | BYPASS
deriving DecidableEq

/-- `(instruction register value, number of bits in selected data register)`,
exactly the tuples of the source enum. -/
def AVR_JTAG.value : AVR_JTAG → Nat × Nat
  | .IDCODE => (0x1, 32)
  | .PROG_ENABLE => (0x4, 16)
  | .PROG_COMMANDS => (0x5, 15)
  | .PROG_PAGELOAD => (0x6, 1024)
  | .PROG_PAGEREAD => (0x7, 1032)
  | .AVR_RESET => (0xC, 1)
  | .BYPASS => (0xF, 1)

/-- A payload argument to `jtag_command`: the source accepts an `int` or a
byte sequence. -/
inductive Payload
  | int (v : Nat)
  | bytes (bs : List Nat)
deriving DecidableEq

/-- `v.to_bytes(k, 'little')`: the `k` little-endian bytes of `v`
(the source value always fits, Python would otherwise raise OverflowError). -/
def to_bytes : Nat → Nat → List Nat
  | _, 0 => []
  | v, k + 1 => (v % 256) :: to_bytes (v / 256) k

/-- Python `ceil(nbits/8)`. -/
def ceil8 (n : Nat) : Nat := (n + 7) / 8

/-- Bit `bit` of the payload byte list, `(data[byte] >> (bit%8)) & 1` with
zero padding past the end of `data` (the `else` branch of the source). -/
def dataBit (data : List Nat) (bit : Nat) : Nat :=
  if h : bit / 8 < data.length then (data.get ⟨bit / 8, h⟩ >>> (bit % 8)) &&& 1
  else 0

/-- `clock_in(bits)`: append the pre-edge byte `bits` and the post-edge byte
`bits + TCK`; the second component is the source's return value
`len(stream)`. -/
def clock_in (stream : List Nat) (bits : Nat) : List Nat × Nat :=
  (stream ++ [bits, bits + TCK], stream.length + 2)

/-- Clock in a sequence of pre-edge byte values, one cell each. -/
def clockSeq (stream : List Nat) (vals : List Nat) : List Nat :=
  vals.foldl (fun s b => (clock_in s b).1) stream

/-- `stream[-2] |= v; stream[-1] |= v`. -/
def or_last2 (s : List Nat) (v : Nat) : List Nat :=
  match s.reverse with
  | b :: a :: rest => ((b ||| v) :: (a ||| v) :: rest).reverse
  | _ => s

/-- Shift the 4-bit instruction register value, least significant bit first
(`clock_in((irvalue & 1) * TDI); irvalue >>= 1` four times). -/
def shiftIR (stream : List Nat) (irvalue : Nat) : List Nat :=
  (List.range 4).foldl (fun s bit => (clock_in s (((irvalue >>> bit) &&& 1) * TDI)).1) stream

/-- Shift `nbits` data register bits (`clock_in(TDI*bool(...))`), recording the
`clock_in` return value of bit 0 as `retindex`. -/
def shiftDR (stream : List Nat) (data : List Nat) (nbits : Nat) : List Nat × Option Nat :=
  (List.range nbits).foldl
    (fun acc bit =>
      let r := clock_in acc.1 (TDI * dataBit data bit)
      (r.1, if bit = 0 then some r.2 else acc.2))
    (stream, none)

/-- Result of the encoding phase of `jtag_command`: the full output stream and
the recorded response start position `retindex`. -/
structure Encoded where
  stream : List Nat
  retindex : Option Nat
deriving DecidableEq

/-- The encoding phase of `jtag_command`, a direct transcription of the source:
initial `stream = [0]`, two idle clocks, TMS walk `[1,1,0,0]` to Shift-IR,
4-bit IR shift with TMS asserted on both halves of the last cell, TMS walk
`[1,0,1,0,0]` to Shift-DR, `nbits`-bit DR shift with TMS asserted on the last
cell, TMS walk `[1,0]`, one final idle clock. -/
def jtag_encode (irvalue nbits : Nat) (data : List Nat) : Encoded :=
  let s0 : List Nat := [0]
  let s1 := clockSeq s0 [0, 0]
  let s2 := clockSeq s1 ([1, 1, 0, 0].map (fun t => t * TMS))
  let s3 := or_last2 (shiftIR s2 irvalue) TMS
  let s4 := clockSeq s3 ([1, 0, 1, 0, 0].map (fun t => t * TMS))
  let s5 := shiftDR s4 data nbits
  let s6 := or_last2 s5.1 TMS
  let s7 := clockSeq s6 ([1, 0].map (fun t => t * TMS))
  let s8 := (clock_in s7 0).1
  ⟨s8, s5.2⟩

/-- The decoding phase of `jtag_command`:
`bytes[int(bit/8)] |= bool(ret[retindex + 2*bit] & TDO) << (bit % 8)` over a
zero buffer of `ceil(nbits/8)` bytes. -/
def decode_bits (nbits retindex : Nat) (ret : List Nat) : List Nat :=
  (List.range nbits).foldl
    (fun bytes bit =>
      bytes.set (bit / 8)
        ((bytes.getD (bit / 8) 0) |||
          ((if (ret.getD (retindex + 2 * bit) 0) &&& TDO ≠ 0 then 1 else 0) <<< (bit % 8))))
    (List.replicate (ceil8 nbits) 0)

/-- Normalize a payload as the source's `isinstance(data, int)` branch does:
an integer becomes its `ceil(nbits/8)` little-endian bytes. -/
def payloadBytes (nbits : Nat) : Payload → List Nat
  | .int v => to_bytes v (ceil8 nbits)
  | .bytes bs => bs

/-- `jtag_command(instruction, data)` against a transport whose echoed
response stream is `ret` (the concatenation of the chunked reads). -/
def jtag_command (inst : AVR_JTAG) (data : Payload) (ret : List Nat) : List Nat :=
  let irvalue := inst.value.1
  let nbits := inst.value.2
  let e := jtag_encode irvalue nbits (payloadBytes nbits data)
  decode_bits nbits (e.retindex.getD 0) ret

/-- The bounded-chunk write loop of the source
(`for offset in range(0, len(stream), CHUNK_SIZE)` with `CHUNK_SIZE = 256`). -/
def chunks : List Nat → List (List Nat)
  | [] => []
  | b :: rest => ((b :: rest).take 256) :: chunks ((b :: rest).drop 256)
termination_by l => l.length
decreasing_by
  simp only [List.length_drop, List.length_cons]
  omega

-- Spec-side definitions (from the specification's words, for comparison).

/-- Value of a bit list read least-significant-bit-first. -/
def bitsToNatLSB : List Bool → Nat
  | [] => 0
  | b :: rest => b.toNat + 2 * bitsToNatLSB rest

/-- Spec-side packing: pack bits `0, …, n-1` of `pattern`
least-significant-bit-first into a byte buffer of `ceil(n/8)` bytes. -/
def packBitsLSB (n : Nat) (pattern : Nat → Bool) : List Nat :=
  (List.range (ceil8 n)).map (fun j =>
    bitsToNatLSB ((List.range 8).map (fun k => pattern (8 * j + k) && decide (8 * j + k < n))))

/-- The TDO line state sampled from response byte `idx`. -/
def tdo_sample (ret : List Nat) (idx : Nat) : Bool :=
  ((ret.getD idx 0) &&& TDO) != 0

/-- Value of a byte list read least-significant-byte-first (the payload
interpretation stated by the spec). -/
def bytesToNatLE : List Nat → Nat
  | [] => 0
  | b :: rest => b + 256 * bytesToNatLE rest

/-! ### Structural form of the encoded stream -/

/-- Expand a list of pre-edge byte values into the emitted (pre-edge,
post-edge) byte pairs. -/
def pairStream : List Nat → List Nat
  | [] => []
  | b :: rest => b :: (b + TCK) :: pairStream rest

/-- Pre-edge byte of instruction-register cell `i`. -/
def irPre (ir i : Nat) : Nat := ((ir >>> i) &&& 1) * TDI

/-- Pre-edge byte of data-register cell `i`. -/
def drPre (data : List Nat) (i : Nat) : Nat := TDI * dataBit data i

/-- The pre-edge byte of every clock cell of a transaction, in order:
2 idle cells, TMS walk to Shift-IR, 4 IR cells (last with TMS), TMS walk to
Shift-DR, `n` DR cells (last with TMS), TMS walk plus one idle cell. -/
def cellList (ir n : Nat) (data : List Nat) : List Nat :=
  [0, 0, TMS, TMS, 0, 0,
   irPre ir 0, irPre ir 1, irPre ir 2, irPre ir 3 ||| TMS,
   TMS, 0, TMS, 0, 0]
  ++ (List.range (n - 1)).map (drPre data)
  ++ [drPre data (n - 1) ||| TMS, TMS, 0, 0]

theorem pairStream_append (l1 l2 : List Nat) :
    pairStream (l1 ++ l2) = pairStream l1 ++ pairStream l2 := by
  induction l1 with
  | nil => simp [pairStream]
  | cons b rest ih => simp [pairStream, ih]

theorem pairStream_length (l : List Nat) : (pairStream l).length = 2 * l.length := by
  induction l with
  | nil => simp [pairStream]
  | cons b rest ih => simp [pairStream, ih]; omega

theorem clockSeq_eq (s vals : List Nat) : clockSeq s vals = s ++ pairStream vals := by
  induction vals generalizing s with
  | nil => simp [clockSeq, pairStream]
  | cons b rest ih =>
    simp only [clockSeq, List.foldl_cons, clock_in] at ih ⊢
    rw [ih, pairStream]
    simp

theorem shiftIR_eq (s : List Nat) (ir : Nat) :
    shiftIR s ir = s ++ pairStream [irPre ir 0, irPre ir 1, irPre ir 2, irPre ir 3] := by
  have h4 : List.range 4 = [0, 1, 2, 3] := rfl
  simp [shiftIR, h4, clock_in, pairStream, irPre]

theorem or_last2_append2 (p : List Nat) (x y v : Nat) :
    or_last2 (p ++ [x, y]) v = p ++ [x ||| v, y ||| v] := by
  have h : (p ++ [x, y]).reverse = y :: x :: p.reverse := by simp
  simp only [or_last2, h]
  simp

theorem shiftDR_fst (s data : List Nat) (n : Nat) :
    (shiftDR s data n).1 = s ++ pairStream ((List.range n).map (drPre data)) := by
  induction n with
  | zero => simp [shiftDR, pairStream]
  | succ m ih =>
    simp only [shiftDR, List.range_succ, List.foldl_append, List.foldl_cons,
      List.foldl_nil] at ih ⊢
    rw [ih]
    simp [clock_in, drPre, pairStream_append, pairStream]

theorem shiftDR_snd (s data : List Nat) (n : Nat) (h : 1 ≤ n) :
    (shiftDR s data n).2 = some (s.length + 2) := by
  induction n with
  | zero => omega
  | succ m ih =>
    rcases Nat.eq_zero_or_pos m with hm | hm
    · subst hm
      simp [shiftDR, List.range_succ, clock_in]
    · simp only [shiftDR, List.range_succ, List.foldl_append, List.foldl_cons,
        List.foldl_nil] at ih ⊢
      rw [if_neg (by omega)]
      exact ih hm

theorem dataBit_cases (data : List Nat) (i : Nat) : dataBit data i = 0 ∨ dataBit data i = 1 := by
  unfold dataBit
  split
  · rcases Nat.mod_two_eq_zero_or_one (data.get ⟨i / 8, by assumption⟩ >>> (i % 8)) with h | h <;>
      rw [Nat.and_one_is_mod, h] <;> simp
  · left; rfl

theorem drPre_cases (data : List Nat) (i : Nat) : drPre data i = 0 ∨ drPre data i = 4 := by
  unfold drPre
  rcases dataBit_cases data i with h | h <;> rw [h] <;> simp [TDI]

theorem irPre_cases (ir i : Nat) : irPre ir i = 0 ∨ irPre ir i = 4 := by
  unfold irPre
  rcases Nat.mod_two_eq_zero_or_one (ir >>> i) with h | h <;>
    rw [Nat.and_one_is_mod, h] <;> simp [TDI]

theorem tck_or_tms_comm (b : Nat) (hb : b = 0 ∨ b = 4) :
    (b + TCK) ||| TMS = (b ||| TMS) + TCK := by
  rcases hb with h | h <;> subst h <;> decide

/-- Closed form of the encoder: for every instruction register value, every
payload and every data register width `n ≥ 1`, the emitted stream is the
initial idle byte `0` followed by the (pre-edge, post-edge) pair of each
clock cell, and the recorded response start position is 33. -/
theorem jtag_encode_eq (ir : Nat) (data : List Nat) (n : Nat) (h : 1 ≤ n) :
    jtag_encode ir n data = ⟨0 :: pairStream (cellList ir n data), some 33⟩ := by
  obtain ⟨m, rfl⟩ : ∃ m, n = m + 1 := ⟨n - 1, by omega⟩
  have hmap1 : ([1, 1, 0, 0].map (fun t => t * TMS)) = [TMS, TMS, 0, 0] := by
    simp
  have hmap2 : ([1, 0, 1, 0, 0].map (fun t => t * TMS)) = [TMS, 0, TMS, 0, 0] := by
    simp
  have hmap3 : ([1, 0].map (fun t => t * TMS)) = [TMS, 0] := by
    simp
  have hrange : List.range (m + 1) = List.range m ++ [m] := by rw [List.range_succ]
  simp only [jtag_encode]
  rw [hmap1, hmap2, hmap3, clockSeq_eq, clockSeq_eq, shiftIR_eq]
  rw [show pairStream [irPre ir 0, irPre ir 1, irPre ir 2, irPre ir 3] =
      pairStream [irPre ir 0, irPre ir 1, irPre ir 2] ++ [irPre ir 3, irPre ir 3 + TCK] from by
    simp [pairStream]]
  rw [← List.append_assoc, or_last2_append2]
  rw [clockSeq_eq, shiftDR_fst, shiftDR_snd _ _ _ (by omega)]
  rw [hrange]
  rw [List.map_append, pairStream_append]
  rw [show List.map (drPre data) [m] = [drPre data m] from by simp]
  rw [show pairStream [drPre data m] = [drPre data m, drPre data m + TCK] from by
    simp [pairStream]]
  rw [← List.append_assoc, or_last2_append2]
  rw [clockSeq_eq]
  simp only [clock_in]
  rw [Encoded.mk.injEq]
  refine ⟨?_, ?_⟩
  · rw [tck_or_tms_comm _ (irPre_cases ir 3), tck_or_tms_comm _ (drPre_cases data m)]
    simp [cellList, pairStream_append, pairStream, List.append_assoc]
  · simp [pairStream, pairStream_length]

/-! ### Decode characterization -/

/-- Partial state of the decode loop after processing bits `0, …, m-1`. -/
def decodeFold (nbits retindex : Nat) (ret : List Nat) (m : Nat) : List Nat :=
  (List.range m).foldl
    (fun bytes bit =>
      bytes.set (bit / 8)
        ((bytes.getD (bit / 8) 0) |||
          ((if (ret.getD (retindex + 2 * bit) 0) &&& TDO ≠ 0 then 1 else 0) <<< (bit % 8))))
    (List.replicate (ceil8 nbits) 0)

theorem decode_bits_eq_fold (nbits retindex : Nat) (ret : List Nat) :
    decode_bits nbits retindex ret = decodeFold nbits retindex ret nbits := rfl

theorem getD_of_lt (l : List Nat) (i : Nat) (h : i < l.length) : l.getD i 0 = l[i] := by
  simp [List.getD_eq_getElem?_getD, List.getElem?_eq_getElem h]

theorem getD_set_self (l : List Nat) (i a : Nat) (h : i < l.length) :
    (l.set i a).getD i 0 = a := by
  simp [List.getD_eq_getElem?_getD, List.getElem?_set_self h]

theorem getD_set_ne (l : List Nat) (i j a : Nat) (h : i ≠ j) :
    (l.set i a).getD j 0 = l.getD j 0 := by
  simp [List.getD_eq_getElem?_getD, List.getElem?_set_ne h]

theorem testBit_one (j : Nat) : Nat.testBit 1 j = decide (j = 0) := by
  have h := @Nat.testBit_two_pow 0 j
  simpa [eq_comm] using h

theorem decode_fold_spec (nbits retindex : Nat) (ret : List Nat) (m : Nat) (hm : m ≤ nbits) :
    (decodeFold nbits retindex ret m).length = ceil8 nbits ∧
    ∀ j k, ((decodeFold nbits retindex ret m).getD j 0).testBit k =
      (decide (j < ceil8 nbits) && decide (k < 8) && decide (8 * j + k < m)
        && tdo_sample ret (retindex + 2 * (8 * j + k))) := by
  induction m with
  | zero =>
    constructor
    · simp [decodeFold]
    intro j k
    have hz : (decodeFold nbits retindex ret 0).getD j 0 = 0 := by
      simp only [decodeFold, List.range_zero, List.foldl_nil]
      rcases Nat.lt_or_ge j (ceil8 nbits) with h | h
      · simp [List.getD_eq_getElem?_getD, List.getElem?_replicate, h]
      · simp [List.getD_eq_getElem?_getD, List.getElem?_replicate, Nat.not_lt_of_le h]
    rw [hz]
    simp
  | succ m ih =>
    obtain ⟨ihlen, ihbit⟩ := ih (by omega)
    have hstep : decodeFold nbits retindex ret (m + 1) =
        (decodeFold nbits retindex ret m).set (m / 8)
          (((decodeFold nbits retindex ret m).getD (m / 8) 0) |||
            ((if (ret.getD (retindex + 2 * m) 0) &&& TDO ≠ 0 then 1 else 0) <<< (m % 8))) := by
      simp only [decodeFold, List.range_succ, List.foldl_append, List.foldl_cons, List.foldl_nil]
    have hqK : m / 8 < ceil8 nbits := by
      simp only [ceil8]
      omega
    rw [hstep]
    refine ⟨by rw [List.length_set]; exact ihlen, ?_⟩
    intro j k
    have hdm : 8 * (m / 8) + m % 8 = m := by omega
    have hrm : m % 8 < 8 := by omega
    by_cases hj : j = m / 8
    · subst hj
      rw [getD_set_self _ _ _ (by rw [ihlen]; exact hqK)]
      rw [Nat.testBit_or, ihbit]
      by_cases hc : (ret.getD (retindex + 2 * m) 0) &&& TDO ≠ 0
      · have hs : tdo_sample ret (retindex + 2 * m) = true := by
          have hc2 := hc
          simp only [List.getD_eq_getElem?_getD] at hc2
          simp [tdo_sample, bne_iff_ne, hc2]
        rw [if_pos hc, Nat.testBit_shiftLeft, testBit_one]
        by_cases hk : k = m % 8
        · subst hk
          have h1 : 8 * (m / 8) + m % 8 < m + 1 := by omega
          have h2 : retindex + 2 * (8 * (m / 8) + m % 8) = retindex + 2 * m := by omega
          simp [hqK, hrm, h1, h2, hs]
        · have h2 : ¬ (m % 8 ≤ k ∧ k - m % 8 = 0) := by omega
          have h3 : (8 * (m / 8) + k < m + 1) ↔ (8 * (m / 8) + k < m) := by
            rcases Nat.lt_or_ge k 8 with h | h
            · omega
            · constructor <;> intro <;> omega
          rcases Nat.lt_or_ge k 8 with h | h
          · have h4 : (8 * (m / 8) + k < m + 1) ↔ (8 * (m / 8) + k < m) := by omega
            simp only [h4]
            have h5 : (decide (m % 8 ≤ k) && decide (k - m % 8 = 0)) = false := by
              rcases Nat.lt_or_ge k (m % 8) with h6 | h6
              · simp [Nat.not_le_of_lt h6]
              · have : k - m % 8 ≠ 0 := by omega
                simp [this]
            rw [show (decide (k ≥ m % 8) && decide (k - m % 8 = 0)) = false from h5]
            simp
          · have h5 : decide (k < 8) = false := by simp [Nat.not_lt_of_le h]
            have h6 : (decide (k ≥ m % 8) && decide (k - m % 8 = 0)) = false := by
              have : k - m % 8 ≠ 0 := by omega
              simp [this]
            rw [h5, h6]
            simp
      · have hs : tdo_sample ret (retindex + 2 * m) = false := by
          have hc2 : ret.getD (retindex + 2 * m) 0 &&& TDO = 0 := by
            by_contra hne
            exact hc hne
          simp only [List.getD_eq_getElem?_getD] at hc2
          simp [tdo_sample, bne_iff_ne, hc2]
        rw [if_neg hc]
        simp only [Nat.zero_shiftLeft, Nat.zero_testBit, Bool.or_false]
        by_cases hk : k = m % 8
        · subst hk
          have h2 : retindex + 2 * (8 * (m / 8) + m % 8) = retindex + 2 * m := by omega
          have h3 : ¬ (8 * (m / 8) + m % 8 < m) := by omega
          simp [h2, h3, hs]
        · rcases Nat.lt_or_ge k 8 with h | h
          · have h4 : (8 * (m / 8) + k < m + 1) ↔ (8 * (m / 8) + k < m) := by omega
            simp only [h4]
          · have h5 : decide (k < 8) = false := by simp [Nat.not_lt_of_le h]
            rw [h5]
            simp
    · rw [getD_set_ne _ _ _ _ (fun hh => hj hh.symm), ihbit]
      rcases Nat.lt_or_ge k 8 with h | h
      · have h4 : (8 * j + k < m + 1) ↔ (8 * j + k < m) := by omega
        simp only [h4]
      · have h5 : decide (k < 8) = false := by simp [Nat.not_lt_of_le h]
        rw [h5]
        simp

theorem bitsToNatLSB_testBit (l : List Bool) (k : Nat) :
    (bitsToNatLSB l).testBit k = l.getD k false := by
  induction l generalizing k with
  | nil => simp [bitsToNatLSB]
  | cons b rest ih =>
    cases k with
    | zero =>
      simp only [bitsToNatLSB, Nat.testBit_zero, List.getD_cons_zero]
      have h1 : (b.toNat + 2 * bitsToNatLSB rest) % 2 = b.toNat % 2 :=
        Nat.add_mul_mod_self_left b.toNat 2 (bitsToNatLSB rest)
      rw [h1]
      cases b <;> simp
    | succ k =>
      rw [Nat.testBit_add_one]
      have h1 : (b.toNat + 2 * bitsToNatLSB rest) / 2 = bitsToNatLSB rest := by
        rw [Nat.add_mul_div_left _ _ (by omega : 0 < 2)]
        cases b <;> simp
      rw [bitsToNatLSB, h1, ih]
      simp

theorem packBitsLSB_length (n : Nat) (pattern : Nat → Bool) :
    (packBitsLSB n pattern).length = ceil8 n := by
  simp [packBitsLSB]

theorem packBitsLSB_getD (n : Nat) (pattern : Nat → Bool) (j : Nat) (hj : j < ceil8 n) :
    (packBitsLSB n pattern).getD j 0 =
      bitsToNatLSB ((List.range 8).map (fun k => pattern (8 * j + k) && decide (8 * j + k < n))) := by
  simp [packBitsLSB, List.getD_eq_getElem?_getD, List.getElem?_range hj]

theorem range8_map_getD (g : Nat → Bool) (k : Nat) :
    ((List.range 8).map g).getD k false = if k < 8 then g k else false := by
  rcases Nat.lt_or_ge k 8 with h | h
  · simp [List.getD_eq_getElem?_getD, List.getElem?_range h, h]
  · have hlen : ((List.range 8).map g).length = 8 := by simp
    rw [List.getD_eq_getElem?_getD, List.getElem?_eq_none (by rw [hlen]; omega)]
    simp [Nat.not_lt_of_le h]

theorem packBitsLSB_testBit (n : Nat) (pattern : Nat → Bool) (j k : Nat) (hj : j < ceil8 n) :
    ((packBitsLSB n pattern).getD j 0).testBit k =
      (decide (k < 8) && decide (8 * j + k < n) && pattern (8 * j + k)) := by
  rw [packBitsLSB_getD n pattern j hj, bitsToNatLSB_testBit, range8_map_getD]
  rcases Nat.lt_or_ge k 8 with h | h
  · simp [h, Bool.and_comm]
  · simp [Nat.not_lt_of_le h]

/-- The decode phase produces exactly the spec's least-significant-bit-first
packing of the TDO samples taken at `retindex + 2*i`. -/
theorem decode_bits_eq_packBitsLSB (n r : Nat) (ret : List Nat) :
    decode_bits n r ret = packBitsLSB n (fun i => tdo_sample ret (r + 2 * i)) := by
  obtain ⟨hlen, hbit⟩ := decode_fold_spec n r ret n le_rfl
  rw [decode_bits_eq_fold]
  apply List.ext_getElem
  · rw [hlen, packBitsLSB_length]
  intro i h1 h2
  apply Nat.eq_of_testBit_eq
  intro k
  rw [← getD_of_lt _ _ h1, ← getD_of_lt _ _ h2]
  have hi : i < ceil8 n := by rw [← hlen]; exact h1
  rw [hbit i k, packBitsLSB_testBit n _ i k hi]
  simp only [hi, decide_True, Bool.true_and]

/-! ### Codec-level claims -/

theorem one_le_nbits (inst : AVR_JTAG) : 1 ≤ inst.value.2 := by
  cases inst <;> simp [AVR_JTAG.value]

theorem cellList_length (ir n : Nat) (data : List Nat) (h : 1 ≤ n) :
    (cellList ir n data).length = 18 + n := by
  simp [cellList]
  omega

theorem getD_cons_add_one (a : Nat) (l : List Nat) (n d : Nat) :
    (a :: l).getD (n + 1) d = l.getD n d := rfl

theorem pairStream_getD (l : List Nat) (c : Nat) (hc : c < l.length) :
    (pairStream l).getD (2 * c) 0 = l.getD c 0 ∧
    (pairStream l).getD (2 * c + 1) 0 = l.getD c 0 + TCK := by
  induction l generalizing c with
  | nil => simp at hc
  | cons x rest ih =>
    cases c with
    | zero => simp [pairStream]
    | succ c =>
      have hc2 : c < rest.length := by simpa using hc
      have h1 : 2 * (c + 1) = (2 * c + 1) + 1 := by ring
      have h2 : 2 * (c + 1) + 1 = ((2 * c + 1) + 1) + 1 := by ring
      constructor
      · rw [h1]
        show (x :: (x + TCK) :: pairStream rest).getD ((2 * c + 1) + 1) 0
          = (x :: rest).getD (c + 1) 0
        simp only [getD_cons_add_one]
        exact (ih c hc2).1
      · rw [h2]
        show (x :: (x + TCK) :: pairStream rest).getD (((2 * c + 1) + 1) + 1) 0
          = (x :: rest).getD (c + 1) 0 + TCK
        simp only [getD_cons_add_one]
        exact (ih c hc2).2

theorem chunks_flatten (l : List Nat) : (chunks l).flatten = l := by
  induction l using chunks.induct with
  | case1 => simp [chunks]
  | case2 b rest ih =>
    rw [chunks]
    simp only [List.flatten_cons]
    rw [ih]
    exact List.take_append_drop 256 (b :: rest)

theorem packBitsLSB_congr (n : Nat) (p q : Nat → Bool) (h : ∀ i, i < n → p i = q i) :
    packBitsLSB n p = packBitsLSB n q := by
  unfold packBitsLSB
  apply List.map_congr_left
  intro j hj
  congr 1
  apply List.map_congr_left
  intro k hk
  by_cases hn : 8 * j + k < n
  · rw [h _ hn]
  · simp [hn]

/-- C1 (confirmed). Round-trip decode: for every instruction whose data
register holds `n` bits, every payload, and every simulated transport whose
echoed response carries a chosen TDO bit pattern at the recorded start
position plus `2*i` (the post-edge, TCK-asserted sample of data-register cell
`i`), `jtag_command` returns exactly that pattern packed
least-significant-bit-first into a buffer of `ceil(n/8)` bytes. -/
theorem C1_roundtrip_decode (inst : AVR_JTAG) (data : Payload) (ret : List Nat)
    (pattern : Nat → Bool)
    (h : ∀ i, i < inst.value.2 →
      tdo_sample ret
        (((jtag_encode inst.value.1 inst.value.2
            (payloadBytes inst.value.2 data)).retindex.getD 0) + 2 * i) = pattern i) :
    jtag_command inst data ret = packBitsLSB inst.value.2 pattern := by
  simp only [jtag_command]
  rw [decode_bits_eq_packBitsLSB]
  exact packBitsLSB_congr _ _ _ h

/-- Witness for C1 at a concrete instruction, payload, transport and pattern. -/
theorem C1_witness :
    jtag_command AVR_JTAG.BYPASS (Payload.int 1) (List.replicate 40 8) =
      packBitsLSB 1 (fun _ => true) :=
  C1_roundtrip_decode AVR_JTAG.BYPASS (Payload.int 1) (List.replicate 40 8) (fun _ => true)
    (by
      intro i hi
      have h0 : i = 0 := by
        simpa [AVR_JTAG.value] using hi
      subst h0
      decide)

/-- C2 (counterexample). The claim says the total output length in bytes is 2
times the total cell count, `2 * (14 fixed + (4 + n))`; for BYPASS (n = 1)
with payload `[1]` the emitted stream has 39 bytes, not 38: the stream
carries one extra leading idle byte before the first cell. -/
theorem C2_counterexample :
    (jtag_encode 0xF 1 [1]).stream.length = 39 ∧ 39 ≠ 2 * (14 + (4 + 1)) := by
  constructor
  · decide
  · decide

/-- C2 (amended). For every instruction with `dataRegisterBits = n` and every
payload, the stream `jtag_command` emits consists of 14 fixed
preamble/postamble cells plus `(4 + n)` bit-cells, each cell contributing a
(pre-edge, post-edge) byte pair with post-edge = pre-edge + TCK, PLUS one
initial idle byte: the total length is `2 * (14 + (4 + n)) + 1`; the chunked
write loop transfers exactly this stream. -/
theorem C2_frame_amended (inst : AVR_JTAG) (data : Payload) :
    (jtag_encode inst.value.1 inst.value.2 (payloadBytes inst.value.2 data)).stream.length
        = 2 * (14 + (4 + inst.value.2)) + 1 ∧
    (∀ c, c < 14 + (4 + inst.value.2) →
      (jtag_encode inst.value.1 inst.value.2
          (payloadBytes inst.value.2 data)).stream.getD (2 * c + 2) 0
        = (jtag_encode inst.value.1 inst.value.2
            (payloadBytes inst.value.2 data)).stream.getD (2 * c + 1) 0 + TCK) ∧
    (chunks (jtag_encode inst.value.1 inst.value.2
        (payloadBytes inst.value.2 data)).stream).flatten
      = (jtag_encode inst.value.1 inst.value.2 (payloadBytes inst.value.2 data)).stream := by
  have hn := one_le_nbits inst
  rw [jtag_encode_eq _ _ _ hn]
  refine ⟨?_, ?_, chunks_flatten _⟩
  · simp only [List.length_cons, pairStream_length,
      cellList_length _ _ _ hn]
    omega
  · intro c hc
    have hc2 : c < (cellList inst.value.1 inst.value.2
        (payloadBytes inst.value.2 data)).length := by
      rw [cellList_length _ _ _ hn]
      omega
    have hp := pairStream_getD (cellList inst.value.1 inst.value.2
        (payloadBytes inst.value.2 data)) c hc2
    have h2 : 2 * c + 2 = (2 * c + 1) + 1 := by ring
    rw [h2]
    show ((0 : Nat) :: pairStream (cellList inst.value.1 inst.value.2
        (payloadBytes inst.value.2 data))).getD ((2 * c + 1) + 1) 0
      = ((0 : Nat) :: pairStream (cellList inst.value.1 inst.value.2
          (payloadBytes inst.value.2 data))).getD ((2 * c) + 1) 0 + TCK
    simp only [getD_cons_add_one]
    rw [hp.1, hp.2]

/-- Witness for C2's amended theorem at a concrete instruction and payload. -/
theorem C2_witness :
    (jtag_encode AVR_JTAG.BYPASS.value.1 AVR_JTAG.BYPASS.value.2
        (payloadBytes AVR_JTAG.BYPASS.value.2 (Payload.int 1))).stream.getD 2 0
      = (jtag_encode AVR_JTAG.BYPASS.value.1 AVR_JTAG.BYPASS.value.2
          (payloadBytes AVR_JTAG.BYPASS.value.2 (Payload.int 1))).stream.getD 1 0 + TCK :=
  (C2_frame_amended AVR_JTAG.BYPASS (Payload.int 1)).2.1 0 (by decide)

/-- C9 (confirmed). Result shape: for every instruction with `n` data register
bits and every transport response, `jtag_command` returns a buffer of exactly
`ceil(n/8)` bytes in which every bit at position `>= n` is zero. -/
theorem C9_result_shape (inst : AVR_JTAG) (data : Payload) (ret : List Nat) :
    (jtag_command inst data ret).length = ceil8 inst.value.2 ∧
    ∀ j k, k < 8 → inst.value.2 ≤ 8 * j + k →
      ((jtag_command inst data ret).getD j 0).testBit k = false := by
  simp only [jtag_command]
  rw [decode_bits_eq_fold]
  obtain ⟨hlen, hbit⟩ := decode_fold_spec inst.value.2
    ((jtag_encode inst.value.1 inst.value.2
      (payloadBytes inst.value.2 data)).retindex.getD 0) ret inst.value.2 le_rfl
  refine ⟨hlen, ?_⟩
  intro j k hk hn
  rw [hbit j k]
  have h1 : decide (8 * j + k < inst.value.2) = false := by
    simp
    omega
  rw [h1]
  simp

/-- Witness for C9 at a concrete instruction, payload, response and bit. -/
theorem C9_witness :
    (jtag_command AVR_JTAG.PROG_COMMANDS (Payload.int 0) []).length = ceil8 15 ∧
    ((jtag_command AVR_JTAG.PROG_COMMANDS (Payload.int 0) []).getD 1 0).testBit 7 = false :=
  ⟨(C9_result_shape AVR_JTAG.PROG_COMMANDS (Payload.int 0) []).1,
   (C9_result_shape AVR_JTAG.PROG_COMMANDS (Payload.int 0) []).2 1 7 (by decide) (by decide)⟩

theorem cellList_mem (ir n : Nat) (data : List Nat) :
    ∀ a ∈ cellList ir n data, a = 0 ∨ a = 4 ∨ a = 16 ∨ a = 20 := by
  intro a ha
  unfold cellList at ha
  rcases List.mem_append.mp ha with h1 | h1
  · rcases List.mem_append.mp h1 with h2 | h2
    · simp only [List.mem_cons, List.not_mem_nil, or_false] at h2
      rcases h2 with rfl | rfl | rfl | rfl | rfl | rfl | rfl | rfl | rfl | rfl | rfl | rfl |
        rfl | rfl | rfl
      all_goals first
        | decide
        | (rcases irPre_cases ir 0 with h | h <;> rw [h] <;> decide)
        | (rcases irPre_cases ir 1 with h | h <;> rw [h] <;> decide)
        | (rcases irPre_cases ir 2 with h | h <;> rw [h] <;> decide)
        | (rcases irPre_cases ir 3 with h | h <;> rw [h] <;> decide)
    · obtain ⟨i, _, rfl⟩ := List.mem_map.mp h2
      rcases drPre_cases data i with h | h <;> rw [h] <;> decide
  · simp only [List.mem_cons, List.not_mem_nil, or_false] at h1
    rcases h1 with rfl | rfl | rfl | rfl
    all_goals first
      | decide
      | (rcases drPre_cases data (n - 1) with h | h <;> rw [h] <;> decide)

theorem pairStream_mem (l : List Nat) (b : Nat) (hb : b ∈ pairStream l) :
    ∃ a ∈ l, b = a ∨ b = a + TCK := by
  induction l with
  | nil => simp [pairStream] at hb
  | cons x rest ih =>
    simp only [pairStream, List.mem_cons] at hb
    rcases hb with h | h | h
    · exact ⟨x, by simp, Or.inl h⟩
    · exact ⟨x, by simp, Or.inr h⟩
    · obtain ⟨a, ha, hor⟩ := ih h
      exact ⟨a, by simp [ha], hor⟩

/-- C10 (confirmed). Output-line invariant: every byte the codec writes to the
transport only uses the TMS, TDI and TCK output bit positions; the TDO input
bit position is never asserted, for every instruction and payload. -/
theorem C10_output_lines (inst : AVR_JTAG) (data : Payload) :
    ∀ b ∈ (jtag_encode inst.value.1 inst.value.2
        (payloadBytes inst.value.2 data)).stream,
      b &&& TDO = 0 ∧ b &&& (TMS ||| TDI ||| TCK) = b := by
  have hn := one_le_nbits inst
  rw [jtag_encode_eq _ _ _ hn]
  intro b hb
  simp only [List.mem_cons] at hb
  rcases hb with h | h
  · subst h
    decide
  · obtain ⟨a, ha, hor⟩ := pairStream_mem _ _ h
    have := cellList_mem inst.value.1 inst.value.2 (payloadBytes inst.value.2 data) a ha
    rcases this with h2 | h2 | h2 | h2 <;> rcases hor with h3 | h3 <;> subst h3 <;>
      rw [h2] <;> decide

/-- Witness for C10: the invariant evaluated on a concrete stream byte. -/
theorem C10_witness :
    (20 : Nat) &&& TDO = 0 ∧ (20 : Nat) &&& (TMS ||| TDI ||| TCK) = 20 :=
  C10_output_lines AVR_JTAG.BYPASS (Payload.int 1) 20 (by decide)

/-! ### Payload interpretation (BitPayload) -/

theorem getD_append_left (l1 l2 : List Nat) (j : Nat) (h : j < l1.length) :
    (l1 ++ l2).getD j 0 = l1.getD j 0 := by
  rw [List.getD_eq_getElem?_getD, List.getElem?_append_left h, ← List.getD_eq_getElem?_getD]

theorem getD_append_right (l1 l2 : List Nat) (j : Nat) (h : l1.length ≤ j) :
    (l1 ++ l2).getD j 0 = l2.getD (j - l1.length) 0 := by
  rw [List.getD_eq_getElem?_getD, List.getElem?_append_right h, ← List.getD_eq_getElem?_getD]

theorem getD_map_range (f : Nat → Nat) (m i : Nat) (h : i < m) :
    ((List.range m).map f).getD i 0 = f i := by
  rw [List.getD_eq_getElem?_getD, List.getElem?_map, List.getElem?_range h]
  rfl

theorem dataBit_getD (data : List Nat) (i : Nat) :
    dataBit data i = ((data.getD (i / 8) 0) >>> (i % 8)) &&& 1 := by
  by_cases h : i / 8 < data.length
  · rw [dataBit, dif_pos h, getD_of_lt _ _ h]
    simp [List.get_eq_getElem]
  · rw [dataBit, dif_neg h]
    rw [List.getD_eq_getElem?_getD, List.getElem?_eq_none (by omega)]
    simp

theorem dataBit_take (K : Nat) (data : List Nat) (i : Nat) (hiK : i / 8 < K) :
    dataBit (data.take K) i = dataBit data i := by
  rw [dataBit_getD, dataBit_getD]
  rw [List.getD_eq_getElem?_getD, List.getElem?_take_of_lt hiK, ← List.getD_eq_getElem?_getD]

theorem dataBit_append_zeros (data : List Nat) (m i : Nat) :
    dataBit (data ++ List.replicate m 0) i = dataBit data i := by
  rw [dataBit_getD, dataBit_getD]
  rcases Nat.lt_or_ge (i / 8) data.length with h | h
  · rw [getD_append_left _ _ _ h]
  · rw [getD_append_right _ _ _ h]
    have h1 : (List.replicate m (0 : Nat)).getD (i / 8 - data.length) 0 = 0 := by
      rw [List.getD_eq_getElem?_getD, List.getElem?_replicate]
      split <;> rfl
    have h2 : data.getD (i / 8) 0 = 0 := by
      rw [List.getD_eq_getElem?_getD, List.getElem?_eq_none (by omega)]
      rfl
    rw [h1, h2]

theorem shiftDR_congr (s : List Nat) (d1 d2 : List Nat) (n : Nat)
    (h : ∀ i, i < n → dataBit d1 i = dataBit d2 i) :
    shiftDR s d1 n = shiftDR s d2 n := by
  induction n with
  | zero => rfl
  | succ m ih =>
    have ih2 := ih (fun i hi => h i (by omega))
    simp only [shiftDR, List.range_succ, List.foldl_append, List.foldl_cons,
      List.foldl_nil] at ih2 ⊢
    rw [ih2, h m (by omega)]

theorem jtag_encode_congr (ir n : Nat) (d1 d2 : List Nat)
    (h : ∀ i, i < n → dataBit d1 i = dataBit d2 i) :
    jtag_encode ir n d1 = jtag_encode ir n d2 := by
  simp only [jtag_encode]
  rw [shiftDR_congr _ _ _ _ h]

theorem dataBit_cons_add8 (b : Nat) (rest : List Nat) (i : Nat) :
    dataBit (b :: rest) (i + 8) = dataBit rest i := by
  rw [dataBit_getD, dataBit_getD]
  have h1 : (i + 8) / 8 = i / 8 + 1 := by omega
  have h2 : (i + 8) % 8 = i % 8 := by omega
  rw [h1, h2, getD_cons_add_one]

theorem testBit_low (b R i : Nat) (hi : i < 8) :
    (b + 256 * R).testBit i = b.testBit i := by
  rw [Nat.testBit_to_div_mod, Nat.testBit_to_div_mod]
  have key : (b + 256 * R) / 2 ^ i % 2 = b / 2 ^ i % 2 := by
    have h256 : (256 : Nat) * R = 2 ^ i * (2 * (2 ^ (7 - i) * R)) := by
      have h8 : (256 : Nat) = 2 ^ i * (2 * 2 ^ (7 - i)) := by
        have he : i + (1 + (7 - i)) = 8 := by omega
        calc (256 : Nat) = 2 ^ 8 := by norm_num
          _ = 2 ^ (i + (1 + (7 - i))) := by rw [he]
          _ = 2 ^ i * (2 ^ 1 * 2 ^ (7 - i)) := by rw [pow_add, pow_add]
          _ = 2 ^ i * (2 * 2 ^ (7 - i)) := by norm_num
      calc (256 : Nat) * R = 2 ^ i * (2 * 2 ^ (7 - i)) * R := by rw [← h8]
        _ = 2 ^ i * (2 * (2 ^ (7 - i) * R)) := by ring
    rw [h256, Nat.add_mul_div_left _ _ (Nat.two_pow_pos i)]
    exact Nat.add_mul_mod_self_left _ 2 _
  rw [key]

theorem testBit_high (b R i : Nat) (hb : b < 256) :
    (b + 256 * R).testBit (i + 8) = R.testBit i := by
  rw [Nat.testBit_to_div_mod, Nat.testBit_to_div_mod]
  have key : (b + 256 * R) / 2 ^ (i + 8) = R / 2 ^ i := by
    have h1 : (2 : Nat) ^ (i + 8) = 256 * 2 ^ i := by
      calc (2 : Nat) ^ (i + 8) = 2 ^ i * 2 ^ 8 := pow_add 2 i 8
        _ = 256 * 2 ^ i := by norm_num [Nat.mul_comm]
    rw [h1, ← Nat.div_div_eq_div_mul]
    rw [Nat.add_mul_div_left _ _ (by norm_num : 0 < (256 : Nat))]
    rw [Nat.div_eq_of_lt hb]
    simp
  rw [key]

theorem dataBit_eq_testBit (data : List Nat) (hd : ∀ b ∈ data, b < 256) (i : Nat) :
    dataBit data i = ((bytesToNatLE data).testBit i).toNat := by
  induction data generalizing i with
  | nil =>
    rw [dataBit_getD]
    simp [bytesToNatLE]
  | cons b rest ih =>
    have hb : b < 256 := hd b (by simp)
    rcases Nat.lt_or_ge i 8 with h | h
    · rw [show bytesToNatLE (b :: rest) = b + 256 * bytesToNatLE rest from rfl]
      rw [testBit_low _ _ _ h]
      rw [dataBit_getD]
      have h1 : i / 8 = 0 := by omega
      have h2 : i % 8 = i := by omega
      rw [h1, h2]
      simp only [List.getD_cons_zero]
      rw [Nat.and_one_is_mod, Nat.shiftRight_eq_div_pow, Nat.toNat_testBit]
    · obtain ⟨i2, rfl⟩ : ∃ i2, i = i2 + 8 := ⟨i - 8, by omega⟩
      rw [dataBit_cons_add8]
      rw [show bytesToNatLE (b :: rest) = b + 256 * bytesToNatLE rest from rfl]
      rw [testBit_high _ _ _ hb]
      exact ih (fun x hx => hd x (by simp [hx])) i2

theorem bytesToNatLE_to_bytes (k v : Nat) (hv : v < 256 ^ k) :
    bytesToNatLE (to_bytes v k) = v := by
  induction k generalizing v with
  | zero =>
    simp only [to_bytes, bytesToNatLE]
    simp at hv
    omega
  | succ k ih =>
    rw [show to_bytes v (k + 1) = (v % 256) :: to_bytes (v / 256) k from rfl]
    rw [show bytesToNatLE ((v % 256) :: to_bytes (v / 256) k)
        = v % 256 + 256 * bytesToNatLE (to_bytes (v / 256) k) from rfl]
    rw [ih (v / 256) (by
      rw [Nat.div_lt_iff_lt_mul (by norm_num : 0 < (256 : Nat))]
      calc v < 256 ^ (k + 1) := hv
        _ = 256 ^ k * 256 := by rw [pow_succ])]
    omega

theorem to_bytes_lt (k : Nat) : ∀ v, ∀ b ∈ to_bytes v k, b < 256 := by
  induction k with
  | zero => simp [to_bytes]
  | succ k ih =>
    intro v b hb
    simp only [to_bytes, List.mem_cons] at hb
    rcases hb with rfl | hb
    · exact Nat.mod_lt _ (by norm_num)
    · exact ih _ b hb

theorem cellList_getD_dr (ir n : Nat) (data : List Nat) (i : Nat) (hi : i < n) (hn : 1 ≤ n) :
    (cellList ir n data).getD (15 + i) 0 &&& TDI = TDI * dataBit data i := by
  unfold cellList
  have hlen1 : ([0, 0, TMS, TMS, 0, 0,
      irPre ir 0, irPre ir 1, irPre ir 2, irPre ir 3 ||| TMS,
      TMS, 0, TMS, 0, 0] : List Nat).length = 15 := rfl
  rcases Nat.lt_or_ge i (n - 1) with h | h
  · have hlen12 : (([0, 0, TMS, TMS, 0, 0,
        irPre ir 0, irPre ir 1, irPre ir 2, irPre ir 3 ||| TMS,
        TMS, 0, TMS, 0, 0] : List Nat)
          ++ (List.range (n - 1)).map (drPre data)).length = 15 + (n - 1) := by
      simp
      omega
    rw [getD_append_left _ _ _ (by rw [hlen12]; omega)]
    rw [getD_append_right _ _ _ (by rw [hlen1]; omega)]
    rw [hlen1, show 15 + i - 15 = i from by omega]
    rw [getD_map_range _ _ _ h]
    unfold drPre
    rcases dataBit_cases data i with h2 | h2 <;> rw [h2] <;> decide
  · have hi2 : i = n - 1 := by omega
    subst hi2
    have hlen12 : (([0, 0, TMS, TMS, 0, 0,
        irPre ir 0, irPre ir 1, irPre ir 2, irPre ir 3 ||| TMS,
        TMS, 0, TMS, 0, 0] : List Nat)
          ++ (List.range (n - 1)).map (drPre data)).length = 15 + (n - 1) := by
      simp
      omega
    rw [getD_append_right _ _ _ (by rw [hlen12])]
    rw [hlen12, show 15 + (n - 1) - (15 + (n - 1)) = 0 from by omega]
    simp only [List.getD_cons_zero]
    unfold drPre
    rcases dataBit_cases data (n - 1) with h2 | h2 <;> rw [h2] <;> decide

/-- C8 (confirmed). BitPayload handling: (1) the pre-edge byte of
data-register cell `i` asserts TDI exactly for bit `i` of the payload read
least-significant-bit-first within each byte and least-significant-byte-first
across the sequence; (2) bytes beyond the first `ceil(n/8)` are silently
ignored (truncation raises nothing); (3) a payload shorter than `n` bits
behaves exactly like one zero-padded; (4) an unsigned integer that fits is
converted to the byte sequence with the same interpretation. -/
theorem C8_bitpayload :
    (∀ (inst : AVR_JTAG) (data : List Nat), (∀ b ∈ data, b < 256) →
      ∀ i, i < inst.value.2 →
        (jtag_encode inst.value.1 inst.value.2 data).stream.getD (31 + 2 * i) 0 &&& TDI
          = TDI * ((bytesToNatLE data).testBit i).toNat) ∧
    (∀ (ir n : Nat) (data : List Nat),
      jtag_encode ir n data = jtag_encode ir n (data.take (ceil8 n))) ∧
    (∀ (ir n : Nat) (data : List Nat) (m : Nat),
      jtag_encode ir n data = jtag_encode ir n (data ++ List.replicate m 0)) ∧
    (∀ (k v : Nat), v < 256 ^ k → bytesToNatLE (to_bytes v k) = v) := by
  refine ⟨?_, ?_, ?_, ?_⟩
  · intro inst data hd i hi
    have hn := one_le_nbits inst
    rw [jtag_encode_eq _ _ _ hn]
    have hc2 : 15 + i < (cellList inst.value.1 inst.value.2 data).length := by
      rw [cellList_length _ _ _ hn]
      omega
    have hidx : 31 + 2 * i = 2 * (15 + i) + 1 := by ring
    rw [hidx]
    show ((0 : Nat) :: pairStream (cellList inst.value.1 inst.value.2 data)).getD
        ((2 * (15 + i)) + 1) 0 &&& TDI = TDI * ((bytesToNatLE data).testBit i).toNat
    rw [getD_cons_add_one, (pairStream_getD _ _ hc2).1]
    rw [cellList_getD_dr _ _ _ _ hi hn, dataBit_eq_testBit data hd i]
  · intro ir n data
    apply jtag_encode_congr
    intro i hi
    exact (dataBit_take (ceil8 n) data i (by simp only [ceil8]; omega)).symm
  · intro ir n data m
    apply jtag_encode_congr
    intro i hi
    exact (dataBit_append_zeros data m i).symm
  · exact bytesToNatLE_to_bytes

/-- Witness for C8 at concrete values: the 16-bit PROG_ENABLE key converts
losslessly, and cell 0 of a concrete byte payload carries its bit 0. -/
theorem C8_witness :
    bytesToNatLE (to_bytes 0xA370 2) = 0xA370 ∧
    (jtag_encode AVR_JTAG.BYPASS.value.1 AVR_JTAG.BYPASS.value.2 [1]).stream.getD 31 0 &&& TDI
      = TDI * ((bytesToNatLE [1]).testBit 0).toNat :=
  ⟨C8_bitpayload.2.2.2 2 0xA370 (by norm_num),
   C8_bitpayload.1 AVR_JTAG.BYPASS [1] (by decide) 0 (by decide)⟩

/-! ### AVR programming sequencer -/

/-- A device oracle: the decoded byte result of the `k`-th transaction of a
run, given the instruction and payload issued (this abstracts
`jtag_command` together with the transport's response at that point). -/
def Dev : Type := Nat → AVR_JTAG → Payload → List Nat

/-- Sequencer bookkeeping: number of transactions issued so far and the
transcript of (instruction, payload) pairs, in order. -/
structure SeqState where
  n : Nat
  trace : List (AVR_JTAG × Payload)
deriving DecidableEq

/-- Issue one `jtag_command` transaction: record it and return the device's
decoded response. -/
def step (dev : Dev) (s : SeqState) (inst : AVR_JTAG) (d : Payload) :
    SeqState × List Nat :=
  (⟨s.n + 1, s.trace ++ [(inst, d)]⟩, dev s.n inst d)

/-- `range(0, len(program), PAGE_BYTES)` with `PAGE_BYTES = int(1024/8) = 128`. -/
def pageOffsets (L : Nat) : List Nat :=
  (List.range ((L + 127) / 128)).map (fun k => k * 128)

/-- The page-write loop body of `program_elf`: load address high and low
bytes, shift the page slice through PROG_PAGELOAD, pulse the write-page
opcodes. -/
def writePages (dev : Dev) (program : List Nat) : List Nat → SeqState → SeqState
  | [], s => s
  | offset :: rest, s =>
    let s1 := (step dev s .PROG_COMMANDS (.int (0x0700 ||| (((offset >>> 1) >>> 8) &&& 0xff)))).1
    let s2 := (step dev s1 .PROG_COMMANDS (.int (0x0300 ||| ((offset >>> 1) &&& 0xff)))).1
    let s3 := (step dev s2 .PROG_PAGELOAD (.bytes ((program.drop offset).take 128))).1
    let s4 := (step dev s3 .PROG_COMMANDS (.int 0x3700)).1
    let s5 := (step dev s4 .PROG_COMMANDS (.int 0x3500)).1
    let s6 := (step dev s5 .PROG_COMMANDS (.int 0x3700)).1
    let s7 := (step dev s6 .PROG_COMMANDS (.int 0x3700)).1
    writePages dev program rest s7

/-- The diagnostic record of the source's
`RuntimeError('Verification failed at offset {}: wrote {}, read {}')`. -/
structure VerifFail where
  offset : Nat
  wrote : List Nat
  read : List Nat
deriving DecidableEq

/-- The verify loop of `program_elf`: reload the address, issue
PROG_PAGEREAD(0), take `[1:]` of the returned bytes and compare its
`[:len(program)-offset]` prefix with `program[offset:offset+128]`; on
mismatch raise immediately (no further transactions). -/
def verifyPages (dev : Dev) (program : List Nat) :
    List Nat → SeqState → SeqState × Except VerifFail Unit
  | [], s => (s, .ok ())
  | offset :: rest, s =>
    let s1 := (step dev s .PROG_COMMANDS (.int (0x0700 ||| (((offset >>> 1) >>> 8) &&& 0xff)))).1
    let s2 := (step dev s1 .PROG_COMMANDS (.int (0x0300 ||| ((offset >>> 1) &&& 0xff)))).1
    let r := step dev s2 .PROG_PAGEREAD (.int 0)
    let read := r.2.drop 1
    if read.take (program.length - offset) = (program.drop offset).take 128 then
      verifyPages dev program rest r.1
    else
      (r.1, .error ⟨offset, (program.drop offset).take 128, read⟩)

/-- `program_elf(file, verify)` after the image bytes `program` have been
extracted: reset, enable programming, chip erase pulses, enter flash write,
write all pages, optionally verify, and on success leave programming mode.
A verification failure propagates and skips the exit commands, exactly as
the Python exception does. -/
def program_elf (program : List Nat) (verify : Bool) (dev : Dev) :
    SeqState × Except VerifFail Unit :=
  let s := (step dev ⟨0, []⟩ .AVR_RESET (.int 1)).1
  let s := (step dev s .PROG_ENABLE (.int 0xA370)).1
  let s := (step dev s .PROG_COMMANDS (.int 0x2380)).1
  let s := (step dev s .PROG_COMMANDS (.int 0x3180)).1
  let s := (step dev s .PROG_COMMANDS (.int 0x3380)).1
  let s := (step dev s .PROG_COMMANDS (.int 0x3380)).1
  let s := (step dev s .PROG_COMMANDS (.int 0x2310)).1
  let s := writePages dev program (pageOffsets program.length) s
  let vres :=
    if verify then
      let s1 := (step dev s .PROG_COMMANDS (.int 0x2302)).1
      verifyPages dev program (pageOffsets program.length) s1
    else (s, .ok ())
  match vres.2 with
  | .error e => (vres.1, .error e)
  | .ok _ =>
    let t := (step dev vres.1 .PROG_COMMANDS (.int 0x2300)).1
    let t := (step dev t .PROG_COMMANDS (.int 0x3300)).1
    let t := (step dev t .PROG_ENABLE (.int 0)).1
    let t := (step dev t .AVR_RESET (.int 0)).1
    (t, .ok ())

/-- `poll_fuse_write_complete()`: issue PROG_COMMANDS(0x3700), inspect bit 1
of byte `[1]` of the result, return once set. The source loop is unbounded;
`fuel` bounds the recursion, `none` meaning the loop is still spinning. -/
def poll_fuse_write_complete (dev : Dev) : Nat → SeqState → Option SeqState
  | 0, _ => none
  | fuel + 1, s =>
    let r := step dev s .PROG_COMMANDS (.int 0x3700)
    if (r.2.getD 1 0) &&& 2 ≠ 0 then some r.1
    else poll_fuse_write_complete dev fuel r.1

/-- A Python argument as `program_fuses` sees it: an `int` (possibly negative
or out of range) or some other object. -/
inductive PyVal
  | intVal (v : Int)
  | nonInt
deriving DecidableEq

/-- Outcome of a `program_fuses` run: normal return, a raised `TypeError`, or
still spinning in the unbounded poll loop when the fuel runs out. -/
inductive FuseOutcome
  | ok
  | typeError
  | hang
deriving DecidableEq

/-- `program_fuses(fuses, extended_fuses)`: the only validation is
`isinstance(fuses, int)` before any transaction; `extended_fuses` is first
touched by `extended_fuses & 0xff` after three transactions (where a non-int
raises `TypeError`); all fuse bytes are masked with `& 0xff`, never
range-checked. Python's `&`, `>>` on ints are Euclidean mod and floor
division by powers of two, as `Int.emod`/`Int.ediv` are for a positive
divisor. -/
def program_fuses (dev : Dev) (fuel : Nat) (fuses extended_fuses : PyVal) :
    SeqState × FuseOutcome :=
  match fuses with
  | .nonInt => (⟨0, []⟩, .typeError)
  | .intVal f =>
    let s := (step dev ⟨0, []⟩ .AVR_RESET (.int 1)).1
    let s := (step dev s .PROG_ENABLE (.int 0xA370)).1
    let s := (step dev s .PROG_COMMANDS (.int 0x2340)).1
    match extended_fuses with
    | .nonInt => (s, .typeError)
    | .intVal ef =>
      let s := (step dev s .PROG_COMMANDS (.int (0x1300 ||| (ef % 256).toNat))).1
      let s := (step dev s .PROG_COMMANDS (.int 0x3b00)).1
      let s := (step dev s .PROG_COMMANDS (.int 0x3900)).1
      let s := (step dev s .PROG_COMMANDS (.int 0x3b00)).1
      let s := (step dev s .PROG_COMMANDS (.int 0x3b00)).1
      match poll_fuse_write_complete dev fuel s with
      | none => (s, .hang)
      | some s2 =>
        let s := (step dev s2 .PROG_COMMANDS (.int (0x1300 ||| ((f / 256) % 256).toNat))).1
        let s := (step dev s .PROG_COMMANDS (.int 0x3700)).1
        let s := (step dev s .PROG_COMMANDS (.int 0x3500)).1
        let s := (step dev s .PROG_COMMANDS (.int 0x3700)).1
        let s := (step dev s .PROG_COMMANDS (.int 0x3700)).1
        match poll_fuse_write_complete dev fuel s with
        | none => (s, .hang)
        | some s3 =>
          let s := (step dev s3 .PROG_COMMANDS (.int (0x1300 ||| (f % 256).toNat))).1
          let s := (step dev s .PROG_COMMANDS (.int 0x3300)).1
          let s := (step dev s .PROG_COMMANDS (.int 0x3100)).1
          let s := (step dev s .PROG_COMMANDS (.int 0x3300)).1
          let s := (step dev s .PROG_COMMANDS (.int 0x3300)).1
          match poll_fuse_write_complete dev fuel s with
          | none => (s, .hang)
          | some s4 => (s4, .ok)

/-! ### Sequencer traces -/

/-- The seven transactions the write loop issues for one page. -/
def writePageTrace (program : List Nat) (offset : Nat) : List (AVR_JTAG × Payload) :=
  [(.PROG_COMMANDS, .int (0x0700 ||| (((offset >>> 1) >>> 8) &&& 0xff))),
   (.PROG_COMMANDS, .int (0x0300 ||| ((offset >>> 1) &&& 0xff))),
   (.PROG_PAGELOAD, .bytes ((program.drop offset).take 128)),
   (.PROG_COMMANDS, .int 0x3700), (.PROG_COMMANDS, .int 0x3500),
   (.PROG_COMMANDS, .int 0x3700), (.PROG_COMMANDS, .int 0x3700)]

/-- The three transactions the verify loop issues for one page. -/
def verifyPageTrace (offset : Nat) : List (AVR_JTAG × Payload) :=
  [(.PROG_COMMANDS, .int (0x0700 ||| (((offset >>> 1) >>> 8) &&& 0xff))),
   (.PROG_COMMANDS, .int (0x0300 ||| ((offset >>> 1) &&& 0xff))),
   (.PROG_PAGEREAD, .int 0)]

/-- The seven transactions issued before the page-write loop. -/
def preWriteTrace : List (AVR_JTAG × Payload) :=
  [(.AVR_RESET, .int 1), (.PROG_ENABLE, .int 0xA370),
   (.PROG_COMMANDS, .int 0x2380), (.PROG_COMMANDS, .int 0x3180),
   (.PROG_COMMANDS, .int 0x3380), (.PROG_COMMANDS, .int 0x3380),
   (.PROG_COMMANDS, .int 0x2310)]

/-- The page bytes actually shifted for a page: the image slice implicitly
zero-padded to the 128-byte (1024-bit) register width. -/
def writtenPage (program : List Nat) (offset : Nat) : List Nat :=
  (program.drop offset).take 128
    ++ List.replicate (128 - ((program.drop offset).take 128).length) 0

/-- The verify comparison for the page at `offset`, when its PROG_PAGEREAD is
the transaction with index `idx + 2`: first returned byte discarded, then
truncated to the image's true remaining length and compared with the slice. -/
def pageOk (dev : Dev) (program : List Nat) (idx offset : Nat) : Prop :=
  ((dev (idx + 2) .PROG_PAGEREAD (.int 0)).drop 1).take (program.length - offset)
    = (program.drop offset).take 128

instance (dev : Dev) (program : List Nat) (idx offset : Nat) :
    Decidable (pageOk dev program idx offset) := by
  unfold pageOk
  infer_instance

theorem writePages_step (dev : Dev) (program : List Nat) (offset : Nat)
    (rest : List Nat) (s : SeqState) :
    writePages dev program (offset :: rest) s
      = writePages dev program rest ⟨s.n + 7, s.trace ++ writePageTrace program offset⟩ := by
  simp only [writePages, step]
  congr 1
  rw [SeqState.mk.injEq]
  constructor
  · omega
  · simp [writePageTrace]

theorem writePages_trace (dev : Dev) (program : List Nat) (offsets : List Nat) (s : SeqState) :
    (writePages dev program offsets s).n = s.n + 7 * offsets.length ∧
    (writePages dev program offsets s).trace
      = s.trace ++ (offsets.map (writePageTrace program)).flatten := by
  induction offsets generalizing s with
  | nil => simp [writePages]
  | cons o rest ih =>
    rw [writePages_step]
    obtain ⟨h1, h2⟩ := ih ⟨s.n + 7, s.trace ++ writePageTrace program o⟩
    refine ⟨?_, ?_⟩
    · rw [h1]
      simp only [List.length_cons]
      omega
    · rw [h2]
      simp

theorem verifyPages_cons_ok (dev : Dev) (program : List Nat) (offset : Nat)
    (rest : List Nat) (s : SeqState)
    (hc : ((dev (s.n + 2) .PROG_PAGEREAD (.int 0)).drop 1).take (program.length - offset)
        = (program.drop offset).take 128) :
    verifyPages dev program (offset :: rest) s
      = verifyPages dev program rest ⟨s.n + 3, s.trace ++ verifyPageTrace offset⟩ := by
  simp only [verifyPages, step]
  rw [if_pos hc]
  congr 1
  rw [SeqState.mk.injEq]
  constructor
  · omega
  · simp [verifyPageTrace]

theorem verifyPages_cons_fail (dev : Dev) (program : List Nat) (offset : Nat)
    (rest : List Nat) (s : SeqState)
    (hc : ¬ (((dev (s.n + 2) .PROG_PAGEREAD (.int 0)).drop 1).take (program.length - offset)
        = (program.drop offset).take 128)) :
    verifyPages dev program (offset :: rest) s
      = (⟨s.n + 3, s.trace ++ verifyPageTrace offset⟩,
         Except.error ⟨offset, (program.drop offset).take 128,
           (dev (s.n + 2) .PROG_PAGEREAD (.int 0)).drop 1⟩) := by
  simp only [verifyPages, step]
  rw [if_neg hc]
  rw [Prod.mk.injEq]
  constructor
  · rw [SeqState.mk.injEq]
    constructor
    · omega
    · simp [verifyPageTrace]
  · rfl

theorem verifyPages_all_ok (dev : Dev) (program : List Nat) (offsets : List Nat) (s : SeqState)
    (h : ∀ k, k < offsets.length → pageOk dev program (s.n + 3 * k) (offsets.getD k 0)) :
    verifyPages dev program offsets s
      = (⟨s.n + 3 * offsets.length, s.trace ++ (offsets.map verifyPageTrace).flatten⟩,
         Except.ok ()) := by
  induction offsets generalizing s with
  | nil => simp [verifyPages]
  | cons o rest ih =>
    have h0 : pageOk dev program s.n o := by
      have := h 0 (by simp)
      simpa using this
    rw [verifyPages_cons_ok dev program o rest s h0]
    rw [ih ⟨s.n + 3, s.trace ++ verifyPageTrace o⟩ (by
      intro k hk
      have hh := h (k + 1) (by simpa using hk)
      have e1 : s.n + 3 * (k + 1) = s.n + 3 + 3 * k := by omega
      rw [e1] at hh
      simpa using hh)]
    rw [Prod.mk.injEq, SeqState.mk.injEq]
    refine ⟨⟨?_, ?_⟩, rfl⟩
    · simp only [List.length_cons]
      omega
    · simp

theorem verifyPages_first_fail (dev : Dev) (program : List Nat) (offsets : List Nat)
    (s : SeqState) (k0 : Nat) (hk0 : k0 < offsets.length)
    (hgood : ∀ k, k < k0 → pageOk dev program (s.n + 3 * k) (offsets.getD k 0))
    (hbad : ¬ pageOk dev program (s.n + 3 * k0) (offsets.getD k0 0)) :
    verifyPages dev program offsets s
      = (⟨s.n + 3 * (k0 + 1),
          s.trace ++ ((offsets.take (k0 + 1)).map verifyPageTrace).flatten⟩,
         Except.error ⟨offsets.getD k0 0, (program.drop (offsets.getD k0 0)).take 128,
           (dev (s.n + 3 * k0 + 2) .PROG_PAGEREAD (.int 0)).drop 1⟩) := by
  induction offsets generalizing s k0 with
  | nil => simp at hk0
  | cons o rest ih =>
    cases k0 with
    | zero =>
      have hb : ¬ pageOk dev program s.n o := by
        have := hbad
        simpa using this
      rw [verifyPages_cons_fail dev program o rest s hb]
      rw [Prod.mk.injEq, SeqState.mk.injEq]
      refine ⟨⟨by omega, by simp [List.take_succ_cons]⟩, by simp⟩
    | succ k =>
      have h0 : pageOk dev program s.n o := by
        have := hgood 0 (by omega)
        simpa using this
      rw [verifyPages_cons_ok dev program o rest s h0]
      rw [ih ⟨s.n + 3, s.trace ++ verifyPageTrace o⟩ k (by simpa using hk0)
        (by
          intro j hj
          have hh := hgood (j + 1) (by omega)
          have e1 : s.n + 3 * (j + 1) = s.n + 3 + 3 * j := by omega
          rw [e1] at hh
          simpa using hh)
        (by
          have e1 : s.n + 3 * (k + 1) = s.n + 3 + 3 * k := by omega
          rw [e1] at hbad
          simpa using hbad)]
      rw [Prod.mk.injEq, SeqState.mk.injEq]
      refine ⟨⟨by dsimp only; omega, by simp [List.take_succ_cons]⟩, ?_⟩
      have e2 : s.n + 3 + 3 * k + 2 = s.n + 3 * (k + 1) + 2 := by omega
      rw [e2]
      simp

theorem program_elf_eq (dev : Dev) (program : List Nat) (verify : Bool) :
    program_elf program verify dev
      = (let sW := writePages dev program (pageOffsets program.length) ⟨7, preWriteTrace⟩
         let vres := if verify then
             verifyPages dev program (pageOffsets program.length)
               ⟨sW.n + 1, sW.trace ++ [(.PROG_COMMANDS, .int 0x2302)]⟩
           else (sW, .ok ())
         match vres.2 with
         | .error e => (vres.1, .error e)
         | .ok _ =>
           ((step dev (step dev (step dev (step dev vres.1
               .PROG_COMMANDS (.int 0x2300)).1
               .PROG_COMMANDS (.int 0x3300)).1
               .PROG_ENABLE (.int 0)).1
               .AVR_RESET (.int 0)).1, .ok ())) := rfl

theorem writtenPage_take (program : List Nat) (offset : Nat) :
    (writtenPage program offset).take (program.length - offset)
      = (program.drop offset).take 128 := by
  unfold writtenPage
  have hlen : ((program.drop offset).take 128).length
      = min 128 (program.length - offset) := by
    simp
  rw [List.take_append_eq_append_take]
  rw [List.take_of_length_le (by omega)]
  rw [List.take_replicate]
  have hmin : min (program.length - offset - ((program.drop offset).take 128).length)
      (128 - ((program.drop offset).take 128).length) = 0 := by omega
  rw [hmin]
  simp

theorem writtenPage_pageOk (dev : Dev) (program : List Nat) (idx offset : Nat)
    (h : (dev (idx + 2) .PROG_PAGEREAD (.int 0)).drop 1 = writtenPage program offset) :
    pageOk dev program idx offset := by
  unfold pageOk
  rw [h, writtenPage_take]

/-- C3 (confirmed). Page iteration: for every image of length L, the write
phase shifts exactly `ceil(L/128)` pages through PROG_PAGELOAD in ascending
offset order (page k at offset `k*128`), each page preceded by
PROG_COMMANDS(0x0700 | (address>>8)&0xFF) then PROG_COMMANDS(0x0300 |
address&0xFF) with address = byteOffset >> 1, and a short final page behaves
exactly as if zero-padded to 128 bytes (1024 bits) before shifting. -/
theorem C3_page_iteration (dev : Dev) (program : List Nat) (s : SeqState) :
    (writePages dev program (pageOffsets program.length) s).trace
      = s.trace ++ ((pageOffsets program.length).map (writePageTrace program)).flatten ∧
    (pageOffsets program.length).length = (program.length + 127) / 128 ∧
    (∀ k, k < (pageOffsets program.length).length →
      (pageOffsets program.length).getD k 0 = k * 128) ∧
    (∀ offset : Nat,
      jtag_encode 0x6 1024 ((program.drop offset).take 128)
        = jtag_encode 0x6 1024 (writtenPage program offset)) := by
  refine ⟨(writePages_trace dev program _ s).2, by simp [pageOffsets], ?_, ?_⟩
  · intro k hk
    have hk2 : k < (program.length + 127) / 128 := by simpa [pageOffsets] using hk
    simp only [pageOffsets]
    exact getD_map_range _ _ _ hk2
  · intro offset
    unfold writtenPage
    apply jtag_encode_congr
    intro i _
    exact (dataBit_append_zeros _ _ i).symm

/-- Witness for C3: the second page of a 130-byte image starts at offset 128. -/
theorem C3_witness :
    (pageOffsets (List.replicate 130 (171 : Nat)).length).getD 1 0 = 1 * 128 :=
  (C3_page_iteration (fun _ _ _ => []) (List.replicate 130 171) ⟨0, []⟩).2.2.1 1 (by decide)

/-- Modelled from the claim's words ("discards its first returned bit"): drop
the first BIT of the decoded least-significant-bit-first stream and repack
the following 1024 bits as 128 bytes. Used only to compare the claim against
the code, which discards the first returned BYTE. -/
def specDropFirstBit (ret : List Nat) : List Nat :=
  (List.range 128).map (fun j =>
    bitsToNatLSB ((List.range 8).map (fun k =>
      (ret.getD ((8 * j + k + 1) / 8) 0).testBit ((8 * j + k + 1) % 8))))

/-- C4 (counterexample). With image [0xFF] and a simulated readback decoding
to bytes 0x00, 0xFF, 0, …, the code verifies successfully — it discards the
first returned BYTE — whereas the claim's reading (drop a single bit and
compare the remaining bytes) would compare 0x80 against 0xFF and fail. -/
theorem C4_counterexample :
    (program_elf [255] true (fun _ inst _ =>
        if inst = AVR_JTAG.PROG_PAGEREAD then (0 : Nat) :: 255 :: List.replicate 127 0
        else [])).2 = Except.ok () ∧
    (specDropFirstBit ((0 : Nat) :: 255 :: List.replicate 127 0)).take 1 ≠ [255] := by
  constructor
  · rfl
  · decide

/-- C4 (amended). Verify readback: for each page the verify loop issues the
two address loads then PROG_PAGEREAD(0) (a 1024 + 8 bit register), discards
the first returned BYTE — the 8 fixed leading padding bits before the 1024
data bits — and compares the remaining bytes truncated to the image's true
remaining length against the source page; on mismatch it stops immediately
with the offset and both byte sequences. -/
theorem C4_verify_readback (dev : Dev) (program : List Nat) (offset : Nat)
    (rest : List Nat) (s : SeqState) :
    AVR_JTAG.PROG_PAGEREAD.value.2 = 1024 + 8 ∧
    (((dev (s.n + 2) .PROG_PAGEREAD (.int 0)).drop 1).take (program.length - offset)
        = (program.drop offset).take 128 →
      verifyPages dev program (offset :: rest) s
        = verifyPages dev program rest ⟨s.n + 3, s.trace ++ verifyPageTrace offset⟩) ∧
    (((dev (s.n + 2) .PROG_PAGEREAD (.int 0)).drop 1).take (program.length - offset)
        ≠ (program.drop offset).take 128 →
      verifyPages dev program (offset :: rest) s
        = (⟨s.n + 3, s.trace ++ verifyPageTrace offset⟩,
           Except.error ⟨offset, (program.drop offset).take 128,
             (dev (s.n + 2) .PROG_PAGEREAD (.int 0)).drop 1⟩)) :=
  ⟨rfl, verifyPages_cons_ok dev program offset rest s,
   verifyPages_cons_fail dev program offset rest s⟩

/-- Witness for C4's amended theorem at a concrete page and device. -/
theorem C4_witness :
    verifyPages (fun _ inst _ =>
        if inst = AVR_JTAG.PROG_PAGEREAD then (0 : Nat) :: 255 :: List.replicate 127 0
        else []) [255] [0] ⟨0, []⟩
      = verifyPages (fun _ inst _ =>
          if inst = AVR_JTAG.PROG_PAGEREAD then (0 : Nat) :: 255 :: List.replicate 127 0
          else []) [255] [] ⟨0 + 3, [] ++ verifyPageTrace 0⟩ :=
  (C4_verify_readback (fun _ inst _ =>
      if inst = AVR_JTAG.PROG_PAGEREAD then (0 : Nat) :: 255 :: List.replicate 127 0
      else []) [255] 0 [] ⟨0, []⟩).2.1 (by decide)

/-- The sequencer state entering the verify loop: 7 setup transactions,
7 per page written, then the flash-read mode command 0x2302. -/
def afterWrite (dev : Dev) (program : List Nat) : SeqState :=
  ⟨(writePages dev program (pageOffsets program.length) ⟨7, preWriteTrace⟩).n + 1,
   (writePages dev program (pageOffsets program.length) ⟨7, preWriteTrace⟩).trace
     ++ [(.PROG_COMMANDS, .int 0x2302)]⟩

/-- The verify loop's result inside `program_elf program true dev`. -/
def verifyResult (dev : Dev) (program : List Nat) : SeqState × Except VerifFail Unit :=
  verifyPages dev program (pageOffsets program.length) (afterWrite dev program)

theorem program_elf_true_eq (dev : Dev) (program : List Nat) :
    program_elf program true dev
      = (match (verifyResult dev program).2 with
         | .error e => ((verifyResult dev program).1, .error e)
         | .ok _ =>
           ((step dev (step dev (step dev (step dev (verifyResult dev program).1
               .PROG_COMMANDS (.int 0x2300)).1
               .PROG_COMMANDS (.int 0x3300)).1
               .PROG_ENABLE (.int 0)).1
               .AVR_RESET (.int 0)).1, .ok ())) := rfl

theorem afterWrite_n (dev : Dev) (program : List Nat) :
    (afterWrite dev program).n = 8 + 7 * (pageOffsets program.length).length := by
  have h := (writePages_trace dev program (pageOffsets program.length) ⟨7, preWriteTrace⟩).1
  simp only [afterWrite]
  rw [h]
  dsimp only
  omega

theorem afterWrite_trace (dev : Dev) (program : List Nat) :
    (afterWrite dev program).trace
      = preWriteTrace ++ ((pageOffsets program.length).map (writePageTrace program)).flatten
        ++ [(.PROG_COMMANDS, .int 0x2302)] := by
  have h := (writePages_trace dev program (pageOffsets program.length) ⟨7, preWriteTrace⟩).2
  simp only [afterWrite]
  rw [h]

/-- C5 (confirmed). Verification failure semantics: if every page's readback
equals the bytes that were written (the zero-padded page), `program_elf`
raises no error; if the readback differs from the source image first at page
k0, it fails immediately with the page offset and both the expected and
observed byte sequences, issuing no transaction after that page's
PROG_PAGEREAD (the whole operation, including the exit commands, is
aborted); there is no retry. -/
theorem C5_verification_failure (dev : Dev) (program : List Nat) :
    ((∀ k, k < (pageOffsets program.length).length →
        (dev (8 + 7 * (pageOffsets program.length).length + 3 * k + 2)
            .PROG_PAGEREAD (.int 0)).drop 1
          = writtenPage program ((pageOffsets program.length).getD k 0)) →
      (program_elf program true dev).2 = Except.ok ()) ∧
    (∀ k0, k0 < (pageOffsets program.length).length →
      (∀ k, k < k0 → pageOk dev program (8 + 7 * (pageOffsets program.length).length + 3 * k)
        ((pageOffsets program.length).getD k 0)) →
      ¬ pageOk dev program (8 + 7 * (pageOffsets program.length).length + 3 * k0)
        ((pageOffsets program.length).getD k0 0) →
      (program_elf program true dev).2
          = Except.error ⟨(pageOffsets program.length).getD k0 0,
              (program.drop ((pageOffsets program.length).getD k0 0)).take 128,
              (dev (8 + 7 * (pageOffsets program.length).length + 3 * k0 + 2)
                .PROG_PAGEREAD (.int 0)).drop 1⟩ ∧
        (program_elf program true dev).1.trace
          = preWriteTrace
            ++ ((pageOffsets program.length).map (writePageTrace program)).flatten
            ++ [(.PROG_COMMANDS, .int 0x2302)]
            ++ (((pageOffsets program.length).take (k0 + 1)).map verifyPageTrace).flatten) := by
  constructor
  · intro h
    have hok := verifyPages_all_ok dev program (pageOffsets program.length)
      (afterWrite dev program)
      (by
        intro k hk
        rw [afterWrite_n]
        exact writtenPage_pageOk dev program _ _ (h k hk))
    rw [program_elf_true_eq]
    simp only [verifyResult]
    rw [hok]
  · intro k0 hk0 hgood hbad
    have hfail := verifyPages_first_fail dev program (pageOffsets program.length)
      (afterWrite dev program) k0 hk0
      (by
        intro k hk
        rw [afterWrite_n]
        exact hgood k hk)
      (by
        rw [afterWrite_n]
        exact hbad)
    rw [program_elf_true_eq]
    simp only [verifyResult]
    rw [hfail]
    constructor
    · have he : (afterWrite dev program).n + 3 * k0 + 2
          = 8 + 7 * (pageOffsets program.length).length + 3 * k0 + 2 := by
        rw [afterWrite_n]
      rw [he]
    · rw [afterWrite_trace]

/-- Witness for C5: a one-page image whose simulated readback echoes exactly
what was written verifies without error. -/
theorem C5_witness :
    (program_elf [171] true (fun _ inst _ =>
        if inst = AVR_JTAG.PROG_PAGEREAD then (0 : Nat) :: 171 :: List.replicate 127 0
        else [])).2 = Except.ok () :=
  (C5_verification_failure (fun _ inst _ =>
      if inst = AVR_JTAG.PROG_PAGEREAD then (0 : Nat) :: 171 :: List.replicate 127 0
      else []) [171]).1 (by
    intro k hk
    have hk1 : k < 1 := by simpa [pageOffsets] using hk
    have hk0 : k = 0 := by omega
    subst hk0
    decide)

/-- C6 (confirmed). Fuse-write polling: `poll_fuse_write_complete` repeatedly
issues PROG_COMMANDS(0x3700) and inspects bit 1 of byte [1] of the decoded
result, returning once set; for a device whose status bit first becomes set
on the N-th poll (and enough fuel), it issues exactly N PROG_COMMANDS(0x3700)
transactions before returning. -/
theorem C6_poll_fuse (dev : Dev) (s : SeqState) (N fuel : Nat) (hN : 1 ≤ N)
    (hfuel : N ≤ fuel)
    (hbefore : ∀ k, k + 1 < N →
      (dev (s.n + k) .PROG_COMMANDS (.int 0x3700)).getD 1 0 &&& 2 = 0)
    (hNth : (dev (s.n + (N - 1)) .PROG_COMMANDS (.int 0x3700)).getD 1 0 &&& 2 ≠ 0) :
    poll_fuse_write_complete dev fuel s
      = some ⟨s.n + N, s.trace ++ List.replicate N (.PROG_COMMANDS, .int 0x3700)⟩ := by
  induction N generalizing s fuel with
  | zero => omega
  | succ M ih =>
    obtain ⟨fu, rfl⟩ : ∃ fu, fuel = fu + 1 := ⟨fuel - 1, by omega⟩
    cases Nat.eq_zero_or_pos M with
    | inl hM =>
      subst hM
      simp only [poll_fuse_write_complete, step]
      rw [if_pos (by simpa using hNth)]
      rfl
    | inr hM =>
      simp only [poll_fuse_write_complete, step]
      rw [if_neg (by simpa using hbefore 0 (by omega))]
      rw [ih ⟨s.n + 1, s.trace ++ [(AVR_JTAG.PROG_COMMANDS, Payload.int 0x3700)]⟩ fu hM (by omega)
        (by
          intro k hk
          dsimp only
          rw [show s.n + 1 + k = s.n + (k + 1) from by omega]
          exact hbefore (k + 1) (by omega))
        (by
          dsimp only
          rw [show s.n + 1 + (M - 1) = s.n + (M + 1 - 1) from by omega]
          exact hNth)]
      congr 1
      rw [SeqState.mk.injEq]
      constructor
      · dsimp only
        omega
      · dsimp only
        rw [List.append_assoc]
        congr 1

/-- Witness for C6: a device that first sets the status bit on the third poll
makes `poll_fuse_write_complete` issue exactly three transactions. -/
theorem C6_witness :
    poll_fuse_write_complete (fun k _ _ => if k = 2 then [0, 2] else [0, 0]) 5 ⟨0, []⟩
      = some ⟨0 + 3, [] ++ List.replicate 3 (.PROG_COMMANDS, .int 0x3700)⟩ :=
  C6_poll_fuse (fun k _ _ => if k = 2 then [0, 2] else [0, 0]) ⟨0, []⟩ 3 5 (by decide)
    (by decide)
    (by
      intro k hk
      rcases k with _ | _ | k
      · decide
      · decide
      · omega)
    (by decide)

/-- C7 (counterexample). The claim requires a type/range error before any
device interaction whenever `fuses` is not a non-negative 16-bit integer;
but for fuses = 65536 (outside 16 bits) the run completes normally: no
range validation exists in the code. -/
theorem C7_counterexample :
    (program_fuses (fun _ _ _ => [2, 2]) 9 (.intVal 65536) (.intVal 0)).2 = FuseOutcome.ok ∧
    ¬ ((65536 : Int) < 2 ^ 16) := by
  constructor
  · rfl
  · decide

/-- C7 (amended). Fuse argument validation: the only check performed before
any device interaction is that `fuses` is an integer (a non-integer raises
TypeError with an empty transcript); integer arguments of any size or sign
are masked, never rejected; a non-integer `extendedFuses` raises TypeError
only after the first three transactions have been issued. -/
theorem C7_fuse_validation (dev : Dev) (fuel : Nat) :
    (∀ ef, (program_fuses dev fuel .nonInt ef).2 = FuseOutcome.typeError ∧
      (program_fuses dev fuel .nonInt ef).1.trace = []) ∧
    (∀ f : Int, (program_fuses dev fuel (.intVal f) .nonInt).2 = FuseOutcome.typeError ∧
      (program_fuses dev fuel (.intVal f) .nonInt).1.trace
        = [(.AVR_RESET, .int 1), (.PROG_ENABLE, .int 0xA370),
           (.PROG_COMMANDS, .int 0x2340)]) ∧
    (∀ f ef : Int, (program_fuses dev fuel (.intVal f) (.intVal ef)).2
      ≠ FuseOutcome.typeError) := by
  refine ⟨fun ef => ⟨rfl, rfl⟩, fun f => ⟨rfl, rfl⟩, ?_⟩
  intro f ef
  simp only [program_fuses]
  split
  · simp
  · split
    · simp
    · split
      · simp
      · simp
